import Mathlib

/-!
# Verification of the Bangla–Spanish voice translator audio pipeline

A shallow embedding, in Lean 4, of the client-side real-time audio pipeline
of the translator application: PCM sample-format conversion, base64 transport
encoding, nearest-index decimation resampling, the playback scheduler, and
the connection-lifecycle state machine.

Floating-point samples are modelled as rationals (`ℚ`); every arithmetic
step of the source (clamping, scaling, truncation via `DataView.setInt16`,
`Math.round`) is embedded explicitly. Byte buffers are lists of naturals
below 256; strings are lists of characters.
-/

namespace VoiceTranslator

/-! ## Sample-format conversion (`utils/audioUtils.ts`, `float32To16BitPCM`) -/

/-- `Math.max(-1, Math.min(1, x))`: clamp a sample to `[-1, 1]`. -/
def clamp (x : ℚ) : ℚ := max (-1) (min 1 x)

/-- Truncation toward zero, the `ToIntegerOrInfinity` step JavaScript applies
to the number passed to `DataView.setInt16`. -/
def truncQ (q : ℚ) : ℤ := if 0 ≤ q then ⌊q⌋ else ⌈q⌉

/-- The `ToInt16` wrap applied by `DataView.setInt16`: reduce the truncated
integer modulo `2^16` into `[-32768, 32767]`. -/
def toInt16 (n : ℤ) : ℤ := (n + 32768) % 65536 - 32768

/-- The 16-bit integer value that `float32To16BitPCM` stores for one sample:
clamp to `[-1,1]`, scale by `0x8000` when negative and by `0x7FFF`
otherwise, then truncate to an integer (semantics of
`view.setInt16(i * 2, s < 0 ? s * 0x8000 : s * 0x7FFF, true)`). -/
def sampleToInt16 (x : ℚ) : ℤ :=
  toInt16 (truncQ (if clamp x < 0 then clamp x * 0x8000 else clamp x * 0x7FFF))

/-- Little-endian byte pair written for one 16-bit value
(`setInt16(..., true)` stores the low byte first). -/
def int16ToBytes (n : ℤ) : List ℕ :=
  let u := (n % 65536).toNat
  [u % 256, u / 256]

/-- `float32To16BitPCM`: the output `ArrayBuffer`, as the list of its bytes.
Each float sample contributes two little-endian bytes of its clamped,
scaled, truncated 16-bit value. -/
def float32To16BitPCM (float32Arr : List ℚ) : List ℕ :=
  float32Arr.flatMap (fun x => int16ToBytes (sampleToInt16 x))

/-- The `new Int16Array(arrayBuffer)` view in `decodeAudioData`: reassemble
consecutive little-endian byte pairs into signed 16-bit integers. -/
def bytesToInt16s : List ℕ → List ℤ
  | lo :: hi :: rest => toInt16 (lo + 256 * hi) :: bytesToInt16s rest
  | _ => []

/-- The int16 → float decode step of `decodeAudioData`:
`float32Data[i] = dataInt16[i] / 32768.0`. -/
def pcm16ToFloat (bytes : List ℕ) : List ℚ :=
  (bytesToInt16s bytes).map (fun (n : ℤ) => (n : ℚ) / 32768)

/-- Spec-words version of the forward conversion, for the refinement claim:
"clamps each sample to `[-1,1]` then scales by 32767 (positive) or 32768
(negative) and truncates to a 16-bit integer". Stated from the spec's
words, to be compared with `sampleToInt16` from the source. -/
def specEncodeSample (x : ℚ) : ℤ :=
  if 0 ≤ clamp x then truncQ (clamp x * 32767) else truncQ (clamp x * 32768)

section

attribute [local semireducible] Rat.mul Rat.inv Rat.add Rat.sub

example : sampleToInt16 1 = 32767 := by decide
example : sampleToInt16 (-1) = -32768 := by decide
example : sampleToInt16 (1/2) = 16383 := by decide
example : pcm16ToFloat (float32To16BitPCM [1]) = [32767/32768] := by decide

end

/-! ## Transport encoding (`arrayBufferToBase64`, `base64ToArrayBuffer`)

The source builds a binary string whose character codes are the buffer's
bytes and calls the browser built-in `btoa`; decoding calls `atob` and reads
the character codes back. The byte → char-code string step is the identity
on byte values, so the two functions are the RFC 4648 base64 encode/decode
of the byte list; `b64Char`/`b64CharVal` and the chunked encode/decode below
model the built-ins `btoa`/`atob`. -/

/-- The standard base64 alphabet: index 0–25 ↦ `A`–`Z`, 26–51 ↦ `a`–`z`,
52–61 ↦ `0`–`9`, 62 ↦ `+`, 63 ↦ `/`. -/
def b64Char (n : ℕ) : Char :=
  if n < 26 then Char.ofNat (65 + n)
  else if n < 52 then Char.ofNat (97 + (n - 26))
  else if n < 62 then Char.ofNat (48 + (n - 52))
  else if n = 62 then '+'
  else '/'

/-- Inverse of `b64Char`, the sextet value `atob` associates to an alphabet
character. -/
def b64CharVal (c : Char) : ℕ :=
  if c = '+' then 62
  else if c = '/' then 63
  else if c.toNat < 65 then c.toNat - 48 + 52
  else if c.toNat < 97 then c.toNat - 65
  else c.toNat - 97 + 26

/-- `btoa`: encode bytes three at a time into four base64 characters, with
`=` padding for a final group of one or two bytes. -/
def b64Encode : List ℕ → List Char
  | [] => []
  | [a] => [b64Char (a / 4), b64Char (a % 4 * 16), '=', '=']
  | [a, b] => [b64Char (a / 4), b64Char (a % 4 * 16 + b / 16), b64Char (b % 16 * 4), '=']
  | a :: b :: c :: rest =>
      b64Char (a / 4) :: b64Char (a % 4 * 16 + b / 16) ::
        b64Char (b % 16 * 4 + c / 64) :: b64Char (c % 64) :: b64Encode rest

/-- `atob`: decode four base64 characters at a time into three bytes, with
`=` padding cutting the last group short. -/
def b64Decode : List Char → List ℕ
  | c1 :: c2 :: c3 :: c4 :: rest =>
      if c3 = '=' then [b64CharVal c1 * 4 + b64CharVal c2 / 16]
      else if c4 = '=' then
        [b64CharVal c1 * 4 + b64CharVal c2 / 16,
         b64CharVal c2 % 16 * 16 + b64CharVal c3 / 4]
      else
        (b64CharVal c1 * 4 + b64CharVal c2 / 16) ::
          (b64CharVal c2 % 16 * 16 + b64CharVal c3 / 4) ::
          (b64CharVal c3 % 4 * 64 + b64CharVal c4) :: b64Decode rest
  | _ => []

/-- `arrayBufferToBase64`: byte list → char-code string → `btoa`. -/
def arrayBufferToBase64 (buffer : List ℕ) : List Char := b64Encode buffer

/-- `base64ToArrayBuffer`: `atob` → char codes → byte list. -/
def base64ToArrayBuffer (base64 : List Char) : List ℕ := b64Decode base64

example : arrayBufferToBase64 [77, 97, 110] = ['T', 'W', 'F', 'u'] := by decide
example : base64ToArrayBuffer (arrayBufferToBase64 [77, 97]) = [77, 97] := by decide
example : base64ToArrayBuffer (arrayBufferToBase64 [255]) = [255] := by decide

/-! ## Resampling (`downsampleBuffer`) -/

/-- JavaScript `Math.round` on a non-negative value: `⌊x + 1/2⌋`, as a
natural number. -/
def jsRound (q : ℚ) : ℕ := (⌊q + 1/2⌋).toNat

/-- `downsampleBuffer`: return the frame unchanged when the input rate
equals or is below the output rate; otherwise decimate by the ratio
`inputSampleRate / outputSampleRate`. The result array is zero-initialised
and `result[i]` is only written when the rounded source index is in
bounds. -/
def downsampleBuffer (buffer : List ℚ) (inputSampleRate outputSampleRate : ℕ) : List ℚ :=
  if inputSampleRate = outputSampleRate then buffer
  else if inputSampleRate < outputSampleRate then buffer
  else
    let sampleRateRatio : ℚ := (inputSampleRate : ℚ) / (outputSampleRate : ℚ)
    let newLength : ℕ := jsRound ((buffer.length : ℚ) / sampleRateRatio)
    (List.range newLength).map (fun (i : ℕ) =>
      let index := jsRound ((i : ℚ) * sampleRateRatio)
      if index < buffer.length then buffer.getD index 0 else 0)

/-! ## Playback scheduler (`useTranslator.ts`, `onmessage` audio path)

State: the `nextStartTimeRef` cursor and the `sourcesRef` set of live
`AudioBufferSourceNode` handles. -/

/-- A playback handle: an identifier plus whether `stop()` has been
called. -/
structure SourceNode where
  id : ℕ
  stopped : Bool
deriving DecidableEq

/-- `source.stop()` on a live node. -/
def stopNode (s : SourceNode) : SourceNode := { s with stopped := true }

/-- `source.stop()` raises `InvalidStateError` when the node was already
stopped. -/
def tryStop (s : SourceNode) : Except Unit SourceNode :=
  if s.stopped then Except.error () else Except.ok (stopNode s)

/-- `try { source.stop(); } catch(e) {}`: stop, swallowing the
already-stopped error. -/
def stopSafe (s : SourceNode) : SourceNode :=
  match tryStop s with
  | Except.ok s' => s'
  | Except.error _ => s

/-- The scheduler's mutable state: `nextStartTimeRef.current` and
`sourcesRef.current`. -/
structure PlayerState where
  nextStartTime : ℚ
  sources : List SourceNode
deriving DecidableEq

/-- One audio chunk arriving in `onmessage`:
`nextStartTime = max(nextStartTime, ctx.currentTime)`;
`source.start(nextStartTime)`; `nextStartTime += audioBuffer.duration`;
`sources.add(source)`. Returns the scheduled start time and the new
state. -/
def enqueue (st : PlayerState) (currentTime duration : ℚ) (node : SourceNode) :
    ℚ × PlayerState :=
  let start := max st.nextStartTime currentTime
  (start, { nextStartTime := start + duration, sources := node :: st.sources })

/-- The `interrupted` branch of `onmessage`: stop every live handle
(swallowing stop-on-already-stopped errors), clear the live set, reset the
cursor to 0. The second component is the list of formerly-live handles
after their `stop()` calls. -/
def interrupt (st : PlayerState) : PlayerState × List SourceNode :=
  ({ nextStartTime := 0, sources := [] }, st.sources.map stopSafe)

/-- The sequence of `(start, duration)` pairs scheduled for a run of audio
chunks arriving as `(currentTime, duration)` events, starting from cursor
`cursor`: the event-loop iteration of `enqueue`. -/
def scheduleRun (cursor : ℚ) : List (ℚ × ℚ) → List (ℚ × ℚ)
  | [] => []
  | e :: rest =>
      let start := max cursor e.1
      (start, e.2) :: scheduleRun (start + e.2) rest

/-! ## Connection lifecycle (`types.ts`, `useTranslator.ts`) -/

/-- The `ConnectionState` enum of `types.ts`. -/
inductive ConnectionState
  | DISCONNECTED
  | CONNECTING
  | CONNECTED
  | ERROR
deriving DecidableEq

/-- The observable hook state of `useTranslator`: the connection state, the
error message, the nullable resource refs (modelled as `Bool`: is the ref
non-null?), and the playback scheduler state. -/
structure TranslatorState where
  connectionState : ConnectionState
  error : Option String
  sessionPromise : Bool
  stream : Bool
  processor : Bool
  inputSource : Bool
  inputContext : Bool
  outputContext : Bool
  player : PlayerState
deriving DecidableEq

/-- The message set by the `if (!API_KEY)` guard of `connect`. -/
def missingKeyMsg : String := "API Key is missing."

/-- The settled effect of `connect` on the observable state, up to the
point where the session reports `onopen`. With an empty API key the guard
`if (!API_KEY)` sets the error message and returns. Otherwise the state
moves to `CONNECTING` and the error is cleared; if any setup step throws
(`getUserMedia` denial, handshake failure, …), the `catch` block records
the message and sets `ERROR`. Resource-ref initialisation inside the `try`
block is elided: the claims concern `connectionState` and `error` only. -/
def connect (st : TranslatorState) (apiKey : String) (setupFailure : Option String) :
    TranslatorState :=
  if apiKey = "" then { st with error := some missingKeyMsg }
  else
    match setupFailure with
    | some msg =>
        { st with connectionState := ConnectionState.ERROR, error := some msg }
    | none =>
        { st with connectionState := ConnectionState.CONNECTING, error := none }

/-- `disconnect`: close the session promise if present, stop tracks, tear
down the processing nodes and contexts (each nulling guarded by a null
check in the source, so the net effect is that every ref is null), stop and
clear all scheduled audio, reset the cursor, and set the state to
`DISCONNECTED`. The `error` message and transcript are untouched. -/
def disconnect (st : TranslatorState) : TranslatorState :=
  { st with
    sessionPromise := false
    stream := false
    processor := false
    inputSource := false
    inputContext := false
    outputContext := false
    player := { nextStartTime := 0, sources := [] }
    connectionState := ConnectionState.DISCONNECTED }

/-! ## Supporting lemmas -/

/-- A fully-disconnected hook state: the initial value of every ref. -/
def initialState : TranslatorState where
  connectionState := ConnectionState.DISCONNECTED
  error := none
  sessionPromise := false
  stream := false
  processor := false
  inputSource := false
  inputContext := false
  outputContext := false
  player := { nextStartTime := 0, sources := [] }

/-- A non-empty API key, for instantiating the connect theorems. -/
def sampleKey : String := "k"

/-- The empty API key. -/
def emptyKey : String := ""

theorem neg_one_le_clamp (x : ℚ) : -1 ≤ clamp x := le_max_left _ _

theorem clamp_le_one (x : ℚ) : clamp x ≤ 1 :=
  max_le (by norm_num) (min_le_left _ _)

theorem clamp_of_mem_Icc {x : ℚ} (h1 : -1 ≤ x) (h2 : x ≤ 1) : clamp x = x := by
  unfold clamp
  rw [min_eq_right h2, max_eq_right h1]

theorem toInt16_eq_self {n : ℤ} (h1 : -32768 ≤ n) (h2 : n ≤ 32767) : toInt16 n = n := by
  unfold toInt16
  omega

theorem truncQ_range {q : ℚ} (h1 : -32768 ≤ q) (h2 : q ≤ 32767) :
    -32768 ≤ truncQ q ∧ truncQ q ≤ 32767 := by
  unfold truncQ
  split
  · constructor
    · have h3 : (0 : ℤ) ≤ ⌊q⌋ := Int.floor_nonneg.mpr (by assumption)
      omega
    · have h3 : (⌊q⌋ : ℚ) ≤ 32767 := le_trans (Int.floor_le q) h2
      exact_mod_cast h3
  · constructor
    · have h3 : (-32768 : ℚ) ≤ ⌈q⌉ := le_trans h1 (Int.le_ceil q)
      exact_mod_cast h3
    · exact Int.ceil_le.mpr (by exact_mod_cast h2)

/-- The scaled, clamped sample never overflows 16 bits, so the `ToInt16`
wrap of `setInt16` is the identity on it. -/
theorem sampleToInt16_eq_truncQ (x : ℚ) :
    sampleToInt16 x = truncQ (if clamp x < 0 then clamp x * 32768 else clamp x * 32767) := by
  have hlb := neg_one_le_clamp x
  have hub := clamp_le_one x
  unfold sampleToInt16
  by_cases hs : clamp x < 0
  · rw [if_pos hs]
    refine toInt16_eq_self ?_ ?_ <;>
      [exact (truncQ_range (by linarith) (by linarith)).1;
       exact (truncQ_range (by linarith) (by linarith)).2]
  · rw [if_neg hs]
    push_neg at hs
    refine toInt16_eq_self ?_ ?_ <;>
      [exact (truncQ_range (by linarith) (by linarith)).1;
       exact (truncQ_range (by linarith) (by linarith)).2]

section

attribute [local semireducible] Rat.mul Rat.inv Rat.add Rat.sub

/-- C3: the forward sample-format conversion clamps each sample to
`[-1,1]`, scales it by 32767 when the clamped value is non-negative and by
32768 when it is negative, and truncates to an integer; in particular the
sample 1.0 encodes to the 16-bit integer 32767 and -1.0 encodes to
-32768. -/
theorem float32To16BitPCM_correct :
    (∀ x : ℚ, sampleToInt16 x = specEncodeSample x)
      ∧ bytesToInt16s (float32To16BitPCM [1, -1]) = [32767, -32768] := by
  constructor
  · intro x
    rw [sampleToInt16_eq_truncQ]
    unfold specEncodeSample
    by_cases hs : clamp x < 0
    · rw [if_pos hs, if_neg (not_le.mpr hs)]
    · rw [if_neg hs, if_pos (not_lt.mp hs)]
  · decide

end

/-- C8 counterexample: calling `connect` with a missing (empty) API key —
a setup failure — leaves the connection state `DISCONNECTED`, not `ERROR`:
the guard sets only the error message and returns before the state machine
is touched. -/
theorem connect_missing_key_counterexample :
    (connect initialState emptyKey none).connectionState = ConnectionState.DISCONNECTED
      ∧ (connect initialState emptyKey none).connectionState ≠ ConnectionState.ERROR
      ∧ (connect initialState emptyKey none).error = some missingKeyMsg := by
  decide

/-- C8 (amended): every setup failure thrown during `connect` with a
non-empty API key ends in the `ERROR` state with the failure message
recorded; a missing (empty) API key instead leaves the connection state
unchanged and only sets the error message. -/
theorem connect_setup_failure_outcomes (st : TranslatorState) (key msg : String)
    (hk : key ≠ emptyKey) :
    (connect st key (some msg)).connectionState = ConnectionState.ERROR
      ∧ (connect st key (some msg)).error = some msg
      ∧ ∀ o : Option String,
          (connect st emptyKey o).connectionState = st.connectionState
            ∧ (connect st emptyKey o).error = some missingKeyMsg := by
  have hk' : ¬ (key = "") := by
    simpa [emptyKey] using hk
  refine ⟨?_, ?_, ?_⟩
  · rw [connect, if_neg hk']
  · rw [connect, if_neg hk']
  · intro o
    rw [connect.eq_def, if_pos (show emptyKey = "" from rfl)]
    exact ⟨rfl, rfl⟩

/-- C8 witness. -/
theorem connect_setup_failure_outcomes_witness :
    sampleKey ≠ emptyKey
      ∧ ((connect initialState sampleKey (some missingKeyMsg)).connectionState
            = ConnectionState.ERROR
          ∧ (connect initialState sampleKey (some missingKeyMsg)).error = some missingKeyMsg
          ∧ ∀ o : Option String,
              (connect initialState emptyKey o).connectionState
                  = initialState.connectionState
                ∧ (connect initialState emptyKey o).error = some missingKeyMsg) :=
  ⟨by decide, connect_setup_failure_outcomes initialState sampleKey missingKeyMsg (by decide)⟩

/-- C9: `disconnect` is idempotent, and calling it while already
`DISCONNECTED` with every resource ref null, the live set empty and the
cursor 0 is a no-op: it throws nothing (it is a total function) and leaves
the observable state unchanged. -/
theorem disconnect_idempotent_noop :
    (∀ st : TranslatorState, disconnect (disconnect st) = disconnect st)
      ∧ ∀ st : TranslatorState,
          st.connectionState = ConnectionState.DISCONNECTED →
          st.sessionPromise = false → st.stream = false → st.processor = false →
          st.inputSource = false → st.inputContext = false → st.outputContext = false →
          st.player = { nextStartTime := 0, sources := [] } →
          disconnect st = st := by
  constructor
  · intro st
    rfl
  · intro st h1 h2 h3 h4 h5 h6 h7 h8
    cases st
    simp_all [disconnect]

/-- C9 witness. -/
theorem disconnect_idempotent_noop_witness :
    initialState.connectionState = ConnectionState.DISCONNECTED
      ∧ initialState.sessionPromise = false ∧ initialState.stream = false
      ∧ initialState.processor = false ∧ initialState.inputSource = false
      ∧ initialState.inputContext = false ∧ initialState.outputContext = false
      ∧ initialState.player = { nextStartTime := 0, sources := [] }
      ∧ disconnect initialState = initialState :=
  ⟨rfl, rfl, rfl, rfl, rfl, rfl, rfl, rfl,
    disconnect_idempotent_noop.2 initialState rfl rfl rfl rfl rfl rfl rfl rfl⟩

/-- C6: the `interrupted` branch stops every live playback handle
(swallowing stop-on-already-stopped errors — `stopSafe` is total), leaves
the live-handle set empty, resets the cursor to 0, and therefore a
subsequent `enqueue` schedules its chunk at the current clock time rather
than at the old cursor. -/
theorem interrupt_spec (st : PlayerState) :
    (interrupt st).1.sources = []
      ∧ (interrupt st).1.nextStartTime = 0
      ∧ (∀ s ∈ (interrupt st).2, s.stopped = true)
      ∧ ∀ (currentTime duration : ℚ) (node : SourceNode), 0 ≤ currentTime →
          (enqueue (interrupt st).1 currentTime duration node).1 = currentTime := by
  refine ⟨rfl, rfl, ?_, ?_⟩
  · intro s hs
    rcases List.mem_map.mp hs with ⟨t, _, rfl⟩
    by_cases h : t.stopped
    · simp [stopSafe, tryStop, h]
    · simp [stopSafe, tryStop, stopNode, h]
  · intro currentTime duration node h
    show max (0 : ℚ) currentTime = currentTime
    exact max_eq_right h

section

attribute [local semireducible] Rat.mul Rat.inv Rat.add Rat.sub

/-- C6 witness. -/
theorem interrupt_spec_witness :
    (0 : ℚ) ≤ 2
      ∧ (enqueue (interrupt ⟨5, [⟨1, false⟩]⟩).1 2 3 ⟨7, false⟩).1 = 2 :=
  ⟨by decide, (interrupt_spec ⟨5, [⟨1, false⟩]⟩).2.2.2 2 3 ⟨7, false⟩ (by decide)⟩

end

/-! ## Base64 round trip -/

theorem b64Char_spec : ∀ i : Fin 64, b64CharVal (b64Char i.val) = i.val ∧ b64Char i.val ≠ '=' := by
  decide

theorem b64CharVal_b64Char {n : ℕ} (h : n < 64) : b64CharVal (b64Char n) = n :=
  (b64Char_spec ⟨n, h⟩).1

theorem b64Char_ne_pad {n : ℕ} (h : n < 64) : b64Char n ≠ '=' :=
  (b64Char_spec ⟨n, h⟩).2

theorem b64Decode_b64Encode :
    ∀ l : List ℕ, (∀ b ∈ l, b < 256) → b64Decode (b64Encode l) = l
  | [], _ => rfl
  | [a], h => by
      have ha : a < 256 := h a (by simp)
      have h1 : a / 4 < 64 := by omega
      have h2 : a % 4 * 16 < 64 := by omega
      rw [b64Encode, b64Decode, if_pos rfl,
        b64CharVal_b64Char h1, b64CharVal_b64Char h2]
      simp only [List.cons.injEq, and_true]
      omega
  | [a, b], h => by
      have ha : a < 256 := h a (by simp)
      have hb : b < 256 := h b (by simp)
      have h1 : a / 4 < 64 := by omega
      have h2 : a % 4 * 16 + b / 16 < 64 := by omega
      have h3 : b % 16 * 4 < 64 := by omega
      rw [b64Encode, b64Decode, if_neg (b64Char_ne_pad h3), if_pos rfl,
        b64CharVal_b64Char h1, b64CharVal_b64Char h2, b64CharVal_b64Char h3]
      simp only [List.cons.injEq, and_true]
      constructor <;> omega
  | a :: b :: c :: rest, h => by
      have ha : a < 256 := h a (by simp)
      have hb : b < 256 := h b (by simp)
      have hc : c < 256 := h c (by simp)
      have h1 : a / 4 < 64 := by omega
      have h2 : a % 4 * 16 + b / 16 < 64 := by omega
      have h3 : b % 16 * 4 + c / 64 < 64 := by omega
      have h4 : c % 64 < 64 := by omega
      have ih := b64Decode_b64Encode rest (fun x hx => h x (by simp [hx]))
      rw [b64Encode, b64Decode, if_neg (b64Char_ne_pad h3), if_neg (b64Char_ne_pad h4),
        b64CharVal_b64Char h1, b64CharVal_b64Char h2, b64CharVal_b64Char h3,
        b64CharVal_b64Char h4, ih]
      simp only [List.cons.injEq, and_true]
      refine ⟨by omega, by omega, by omega⟩

/-- Every byte of the forward conversion's output buffer is below 256. -/
theorem float32To16BitPCM_bytes_lt {frame : List ℚ} :
    ∀ byte ∈ float32To16BitPCM frame, byte < 256 := by
  intro byte hb
  rcases List.mem_flatMap.mp hb with ⟨x, _, hmem⟩
  have hu : (sampleToInt16 x % 65536).toNat < 65536 := by
    have h1 := Int.emod_lt_of_pos (sampleToInt16 x) (show (0:ℤ) < 65536 by norm_num)
    have h2 := Int.emod_nonneg (sampleToInt16 x) (show (65536:ℤ) ≠ 0 by norm_num)
    omega
  simp only [int16ToBytes, List.mem_cons, List.not_mem_nil, or_false] at hmem
  rcases hmem with h | h <;> omega

/-- C7: transport-encoding round trip — for every byte buffer produced by
the forward conversion of 4.1, base64-encoding it with
`arrayBufferToBase64` and decoding the result with `base64ToArrayBuffer`
yields a byte-for-byte identical buffer. -/
theorem base64_roundtrip_pcm (frame : List ℚ) :
    base64ToArrayBuffer (arrayBufferToBase64 (float32To16BitPCM frame))
      = float32To16BitPCM frame :=
  b64Decode_b64Encode _ float32To16BitPCM_bytes_lt

/-! ## Resampling: length, bounds and copy semantics -/

theorem jsRound_natCast (n : ℕ) : jsRound (n : ℚ) = n := by
  unfold jsRound
  have h : ⌊(n : ℚ) + 1/2⌋ = (n : ℤ) := by
    rw [Int.floor_eq_iff]
    constructor
    · push_cast
      linarith
    · push_cast
      linarith
  rw [h]
  exact Int.toNat_natCast n

/-- The downsampling branch of `downsampleBuffer`, written as a map over
`List.range`. -/
theorem downsampleBuffer_eq_map (buffer : List ℚ) {ir or : ℕ} (h2 : or < ir) :
    downsampleBuffer buffer ir or
      = (List.range (jsRound ((buffer.length : ℚ) / ((ir : ℚ) / (or : ℚ))))).map
          (fun (i : ℕ) => if jsRound ((i : ℚ) * ((ir : ℚ) / (or : ℚ))) < buffer.length
            then buffer.getD (jsRound ((i : ℚ) * ((ir : ℚ) / (or : ℚ)))) 0 else 0) := by
  unfold downsampleBuffer
  rw [if_neg (by omega), if_neg (by omega)]

/-- Core bounds fact: when `1 < r`, every output index below
`round(L / r)` has its rounded source index `round(i * r)` strictly below
`L`. -/
theorem jsRound_src_index_lt {L i : ℕ} {r : ℚ} (hr : 1 < r)
    (hi : i < jsRound ((L : ℚ) / r)) : jsRound ((i : ℚ) * r) < L := by
  unfold jsRound at hi ⊢
  have hr0 : (0 : ℚ) < r := lt_trans one_pos hr
  have hiz : (i : ℤ) < ⌊(L : ℚ) / r + 1/2⌋ := by omega
  have hfl : (⌊(L : ℚ) / r + 1/2⌋ : ℚ) ≤ (L : ℚ) / r + 1/2 := Int.floor_le _
  have hdiv : ((L : ℚ) / r) * r = L := div_mul_cancel₀ _ (ne_of_gt hr0)
  have hiq : (i : ℚ) + 1 ≤ (L : ℚ) / r + 1/2 := by
    have h5 : ((i : ℤ) : ℚ) + 1 ≤ (⌊(L : ℚ) / r + 1/2⌋ : ℚ) := by
      exact_mod_cast hiz
    push_cast at h5
    linarith
  have hir : (i : ℚ) * r ≤ (L : ℚ) - r / 2 := by
    have h5 : (i : ℚ) ≤ (L : ℚ) / r - 1/2 := by linarith
    have h6 : (i : ℚ) * r ≤ ((L : ℚ) / r - 1/2) * r :=
      mul_le_mul_of_nonneg_right h5 (le_of_lt hr0)
    calc (i : ℚ) * r ≤ ((L : ℚ) / r - 1/2) * r := h6
      _ = (L : ℚ) - r / 2 := by rw [sub_mul, hdiv]; ring
  have hL : (i : ℚ) * r + 1/2 < (L : ℚ) := by linarith
  have hfloor : ⌊(i : ℚ) * r + 1/2⌋ < (L : ℤ) := Int.floor_lt.mpr (by exact_mod_cast hL)
  have hLpos : 0 < L := by
    have h7 : (0 : ℚ) ≤ (i : ℚ) * r := mul_nonneg (by positivity) (le_of_lt hr0)
    have h8 : (0 : ℚ) < (L : ℚ) := by linarith
    exact_mod_cast h8
  omega

/-- The resampling ratio exceeds 1 exactly in the decimation branch. -/
theorem one_lt_ratio {ir or : ℕ} (h1 : 0 < or) (h2 : or < ir) :
    1 < (ir : ℚ) / (or : ℚ) := by
  rw [one_lt_div (by exact_mod_cast h1)]
  exact_mod_cast h2

/-- Shared copy-semantics lemma: in the decimation branch every output
entry is in bounds and copies the rounded source sample. -/
theorem downsample_copy_aux (buffer : List ℚ) {ir or : ℕ}
    (h1 : 0 < or) (h2 : or < ir) (i : ℕ)
    (hi : i < (downsampleBuffer buffer ir or).length) :
    jsRound ((i : ℚ) * ((ir : ℚ) / (or : ℚ))) < buffer.length
      ∧ (downsampleBuffer buffer ir or).get ⟨i, hi⟩
          = buffer.getD (jsRound ((i : ℚ) * ((ir : ℚ) / (or : ℚ)))) 0 := by
  have he := downsampleBuffer_eq_map buffer h2
  have hiN : i < jsRound ((buffer.length : ℚ) / ((ir : ℚ) / (or : ℚ))) := by
    have h5 := hi
    rw [he] at h5
    simpa using h5
  have hb := jsRound_src_index_lt (one_lt_ratio h1 h2) hiN
  refine ⟨hb, ?_⟩
  rw [List.get_of_eq he ⟨i, hi⟩]
  simp only [List.get_eq_getElem, List.getElem_map, List.getElem_range]
  rw [if_pos hb]

/-- C5: for input length `L` and ratio `r = inputRate/outputRate ≥ 1`, the
output of `downsampleBuffer` has length exactly `round(L / r)`; in
particular a 4096-sample frame resampled from 48000 Hz to 16000 Hz has
1365 samples. -/
theorem downsampleBuffer_length_spec :
    (∀ (buffer : List ℚ) (ir outr : ℕ), 0 < outr → outr ≤ ir →
        (downsampleBuffer buffer ir outr).length
          = jsRound ((buffer.length : ℚ) / ((ir : ℚ) / (outr : ℚ))))
      ∧ (downsampleBuffer (List.replicate 4096 0) 48000 16000).length = 1365 := by
  have hgen : ∀ (buffer : List ℚ) (ir outr : ℕ), 0 < outr → outr ≤ ir →
      (downsampleBuffer buffer ir outr).length
        = jsRound ((buffer.length : ℚ) / ((ir : ℚ) / (outr : ℚ))) := by
    intro buffer ir outr h1 h2
    rcases eq_or_lt_of_le h2 with he | hlt
    · subst he
      have hr : (outr : ℚ) / (outr : ℚ) = 1 := by
        rw [div_self]
        exact_mod_cast Nat.pos_iff_ne_zero.mp h1
      rw [hr, div_one, jsRound_natCast]
      unfold downsampleBuffer
      rw [if_pos rfl]
    · rw [downsampleBuffer_eq_map buffer hlt]
      simp
  refine ⟨hgen, ?_⟩
  rw [hgen (List.replicate 4096 0) 48000 16000 (by norm_num) (by norm_num)]
  have h3 : (((List.replicate 4096 (0 : ℚ)).length : ℚ)) = 4096 := by
    rw [List.length_replicate]
    norm_num
  have h4 : (((48000 : ℕ) : ℚ) / ((16000 : ℕ) : ℚ)) = 3 := by norm_num
  rw [h3, h4]
  unfold jsRound
  have h5 : ⌊(4096 : ℚ) / 3 + 1/2⌋ = (1365 : ℤ) := by
    rw [Int.floor_eq_iff]
    constructor <;> norm_num
  rw [h5]
  rfl

section

attribute [local semireducible] Rat.mul Rat.inv Rat.add Rat.sub

/-- C5 witness. -/
theorem downsampleBuffer_length_spec_witness :
    0 < 16000 ∧ 16000 ≤ 48000
      ∧ (downsampleBuffer (List.replicate 4 0) 48000 16000).length
          = jsRound (((List.replicate 4 (0 : ℚ)).length : ℚ) / ((48000 : ℚ) / (16000 : ℚ))) :=
  ⟨by decide, by decide,
    downsampleBuffer_length_spec.1 (List.replicate 4 0) 48000 16000 (by decide) (by decide)⟩

end

/-- C10 (implicit safety): in the decimation branch, for every output
index the rounded source index `round(i × r)` is strictly below the input
length, so the in-bounds guard always takes the copy branch and no output
sample is left at its zero default. -/
theorem downsample_index_in_bounds (buffer : List ℚ) (ir outr : ℕ)
    (h1 : 0 < outr) (h2 : outr < ir) (i : ℕ)
    (hi : i < (downsampleBuffer buffer ir outr).length) :
    jsRound ((i : ℚ) * ((ir : ℚ) / (outr : ℚ))) < buffer.length
      ∧ (downsampleBuffer buffer ir outr).get ⟨i, hi⟩
          = buffer.getD (jsRound ((i : ℚ) * ((ir : ℚ) / (outr : ℚ)))) 0 :=
  downsample_copy_aux buffer h1 h2 i hi

section

attribute [local semireducible] Rat.mul Rat.inv Rat.add Rat.sub

/-- C10 witness. -/
theorem downsample_index_in_bounds_witness :
    0 < 16000 ∧ 16000 < 48000
      ∧ ∃ hi : 0 < (downsampleBuffer [0, 0, 0] 48000 16000).length,
          jsRound ((0 : ℚ) * ((48000 : ℚ) / (16000 : ℚ))) < ([0, 0, 0] : List ℚ).length
            ∧ (downsampleBuffer [0, 0, 0] 48000 16000).get ⟨0, hi⟩
                = ([0, 0, 0] : List ℚ).getD (jsRound ((0 : ℚ) * ((48000 : ℚ) / (16000 : ℚ)))) 0 := by
  refine ⟨by decide, by decide, ?_⟩
  have hi : 0 < (downsampleBuffer [0, 0, 0] 48000 16000).length := by decide
  exact ⟨hi, downsample_index_in_bounds [0, 0, 0] 48000 16000 (by decide) (by decide) 0 hi⟩

end

/-- C4: the resampling contract — a frame whose input rate is at or below
the output rate is returned unchanged (so resampling at the target rate is
the identity), and in the decimation branch every output index `i` holds
the input sample at source index `round(i × inputRate/outputRate)`, copied
directly with no interpolation. -/
theorem downsampleBuffer_contract :
    (∀ (buffer : List ℚ) (ir outr : ℕ), ir ≤ outr → downsampleBuffer buffer ir outr = buffer)
      ∧ ∀ (buffer : List ℚ) (ir outr : ℕ), 0 < outr → outr < ir →
          ∀ (i : ℕ) (hi : i < (downsampleBuffer buffer ir outr).length),
            ∃ hsrc : jsRound ((i : ℚ) * ((ir : ℚ) / (outr : ℚ))) < buffer.length,
              (downsampleBuffer buffer ir outr).get ⟨i, hi⟩
                = buffer.get ⟨jsRound ((i : ℚ) * ((ir : ℚ) / (outr : ℚ))), hsrc⟩ := by
  constructor
  · intro buffer ir outr h
    rcases eq_or_lt_of_le h with he | hlt
    · unfold downsampleBuffer
      rw [if_pos he]
    · unfold downsampleBuffer
      rw [if_neg (by omega), if_pos hlt]
  · intro buffer ir outr h1 h2 i hi
    obtain ⟨hb, hcopy⟩ := downsample_copy_aux buffer h1 h2 i hi
    refine ⟨hb, ?_⟩
    rw [hcopy, List.get_eq_getElem]
    exact List.getD_eq_getElem buffer 0 hb

/-- C4 witness. -/
theorem downsampleBuffer_contract_witness :
    16000 ≤ 16000 ∧ downsampleBuffer [0] 16000 16000 = [0] :=
  ⟨by decide, downsampleBuffer_contract.1 [0] 16000 16000 (by decide)⟩

/-! ## Playback scheduler lemmas -/

/-- `scheduleRun` is the event-loop iteration of `enqueue`: one step
schedules at the enqueue start and continues from the advanced cursor. -/
theorem scheduleRun_matches_enqueue (cursor now d : ℚ) (srcs : List SourceNode)
    (node : SourceNode) (rest : List (ℚ × ℚ)) :
    scheduleRun cursor ((now, d) :: rest)
      = ((enqueue ⟨cursor, srcs⟩ now d node).1, d)
          :: scheduleRun (enqueue ⟨cursor, srcs⟩ now d node).2.nextStartTime rest := rfl

theorem scheduleRun_length (cursor : ℚ) (es : List (ℚ × ℚ)) :
    (scheduleRun cursor es).length = es.length := by
  induction es generalizing cursor with
  | nil => rfl
  | cons e rest ih => simp [scheduleRun, ih]

/-- Durations are carried over unchanged from events to scheduled
entries. -/
theorem scheduleRun_snd :
    ∀ (es : List (ℚ × ℚ)) (cursor : ℚ) (k : ℕ),
      ((scheduleRun cursor es).getD k (0, 0)).2 = (es.getD k (0, 0)).2
  | [], _, _ => rfl
  | _ :: _, _, 0 => rfl
  | e :: rest, cursor, k + 1 => by
      simpa [scheduleRun, List.getD_cons_succ]
        using scheduleRun_snd rest (max cursor e.1 + e.2) k

/-- The first scheduled entry starts at `max(cursor, clock)`. -/
theorem scheduleRun_head (cursor : ℚ) (e : ℚ × ℚ) (rest : List (ℚ × ℚ)) :
    ((scheduleRun cursor (e :: rest)).getD 0 (0, 0)).1 = max cursor e.1 := by
  simp [scheduleRun]

/-- The step rule: each later entry starts at the later of the previous
entry's end time (the cursor) and that chunk's arrival clock time. -/
theorem scheduleRun_step :
    ∀ (es : List (ℚ × ℚ)) (cursor : ℚ) (k : ℕ), k + 1 < es.length →
      ((scheduleRun cursor es).getD (k + 1) (0, 0)).1
        = max (((scheduleRun cursor es).getD k (0, 0)).1
                + ((scheduleRun cursor es).getD k (0, 0)).2)
              ((es.getD (k + 1) (0, 0)).1)
  | [], _, k, hk => by simp at hk
  | [_], _, k, hk => by simp at hk
  | e :: e' :: rest, cursor, 0, _ => by
      simp [scheduleRun, List.getD_cons_succ, List.getD_cons_zero]
  | e :: rest, cursor, k + 1, hk => by
      have ih := scheduleRun_step rest (max cursor e.1 + e.2) k (by simpa using hk)
      simpa [scheduleRun, List.getD_cons_succ] using ih

/-- Every scheduled start time is at or after the cursor the run started
from (durations being non-negative). -/
theorem scheduleRun_cursor_le :
    ∀ (es : List (ℚ × ℚ)) (cursor : ℚ), (∀ e ∈ es, 0 ≤ e.2) →
      ∀ p ∈ scheduleRun cursor es, cursor ≤ p.1
  | [], _, _, p, hp => by simp [scheduleRun] at hp
  | e :: rest, cursor, hd, p, hp => by
      rw [scheduleRun] at hp
      rcases List.mem_cons.mp hp with h | h
      · rw [h]
        exact le_max_left _ _
      · have h2 := scheduleRun_cursor_le rest (max cursor e.1 + e.2)
          (fun x hx => hd x (by simp [hx])) p h
        have h3 : 0 ≤ e.2 := hd e (by simp)
        have h4 : cursor ≤ max cursor e.1 := le_max_left _ _
        linarith

/-- No two scheduled entries overlap: each earlier entry ends no later
than any later entry starts. -/
theorem scheduleRun_pairwise :
    ∀ (es : List (ℚ × ℚ)) (cursor : ℚ), (∀ e ∈ es, 0 ≤ e.2) →
      List.Pairwise (fun a b => a.1 + a.2 ≤ b.1) (scheduleRun cursor es)
  | [], _, _ => List.Pairwise.nil
  | e :: rest, cursor, hd => by
      rw [scheduleRun]
      refine List.Pairwise.cons ?_
        (scheduleRun_pairwise rest _ (fun x hx => hd x (by simp [hx])))
      intro b hb
      have h2 := scheduleRun_cursor_le rest (max cursor e.1 + e.2)
        (fun x hx => hd x (by simp [hx])) b hb
      simpa using h2

/-- C1: the playback-scheduler invariant. For a run of chunks arriving as
`(clockTime, duration)` events with non-negative durations: durations are
preserved; the first entry starts at `max(cursor, clock)`; each subsequent
entry starts at the later of the previous entry's end time and the current
clock time; no two scheduled entries' time intervals overlap; and when
every chunk arrives no later than the cursor (faster than playback
consumes), consecutive starts satisfy `start(k+1) = start(k) + d(k)`. -/
theorem playback_scheduler_invariant (cursor : ℚ) (es : List (ℚ × ℚ))
    (hd : ∀ e ∈ es, 0 ≤ e.2) :
    (∀ k : ℕ, ((scheduleRun cursor es).getD k (0, 0)).2 = (es.getD k (0, 0)).2)
      ∧ (0 < es.length →
          ((scheduleRun cursor es).getD 0 (0, 0)).1 = max cursor ((es.getD 0 (0, 0)).1))
      ∧ (∀ k : ℕ, k + 1 < es.length →
          ((scheduleRun cursor es).getD (k + 1) (0, 0)).1
            = max (((scheduleRun cursor es).getD k (0, 0)).1
                    + ((scheduleRun cursor es).getD k (0, 0)).2)
                  ((es.getD (k + 1) (0, 0)).1))
      ∧ List.Pairwise (fun a b => a.1 + a.2 ≤ b.1) (scheduleRun cursor es)
      ∧ ((∀ k : ℕ, k + 1 < es.length →
            (es.getD (k + 1) (0, 0)).1
              ≤ ((scheduleRun cursor es).getD k (0, 0)).1
                  + ((scheduleRun cursor es).getD k (0, 0)).2) →
          ∀ k : ℕ, k + 1 < es.length →
            ((scheduleRun cursor es).getD (k + 1) (0, 0)).1
              = ((scheduleRun cursor es).getD k (0, 0)).1
                  + ((scheduleRun cursor es).getD k (0, 0)).2) := by
  refine ⟨fun k => scheduleRun_snd es cursor k, ?_, fun k hk => scheduleRun_step es cursor k hk,
    scheduleRun_pairwise es cursor hd, ?_⟩
  · intro hlen
    cases es with
    | nil => simp at hlen
    | cons e rest => exact scheduleRun_head cursor e rest
  · intro hfast k hk
    rw [scheduleRun_step es cursor k hk]
    exact max_eq_left (hfast k hk)

section

attribute [local semireducible] Rat.mul Rat.inv Rat.add Rat.sub

/-- C1 witness. -/
theorem playback_scheduler_invariant_witness :
    (∀ e ∈ [((0 : ℚ), (1 : ℚ)), ((0 : ℚ), (2 : ℚ))], (0 : ℚ) ≤ e.2)
      ∧ ((∀ k : ℕ,
            ((scheduleRun 0 [((0 : ℚ), (1 : ℚ)), ((0 : ℚ), (2 : ℚ))]).getD k (0, 0)).2
              = (([((0 : ℚ), (1 : ℚ)), ((0 : ℚ), (2 : ℚ))]).getD k (0, 0)).2)
          ∧ (0 < ([((0 : ℚ), (1 : ℚ)), ((0 : ℚ), (2 : ℚ))]).length →
              ((scheduleRun 0 [((0 : ℚ), (1 : ℚ)), ((0 : ℚ), (2 : ℚ))]).getD 0 (0, 0)).1
                = max 0 ((([((0 : ℚ), (1 : ℚ)), ((0 : ℚ), (2 : ℚ))]).getD 0 (0, 0)).1))
          ∧ (∀ k : ℕ, k + 1 < ([((0 : ℚ), (1 : ℚ)), ((0 : ℚ), (2 : ℚ))]).length →
              ((scheduleRun 0 [((0 : ℚ), (1 : ℚ)), ((0 : ℚ), (2 : ℚ))]).getD (k + 1) (0, 0)).1
                = max (((scheduleRun 0 [((0 : ℚ), (1 : ℚ)), ((0 : ℚ), (2 : ℚ))]).getD k (0, 0)).1
                        + ((scheduleRun 0 [((0 : ℚ), (1 : ℚ)), ((0 : ℚ), (2 : ℚ))]).getD k (0, 0)).2)
                      ((([((0 : ℚ), (1 : ℚ)), ((0 : ℚ), (2 : ℚ))]).getD (k + 1) (0, 0)).1))
          ∧ List.Pairwise (fun a b => a.1 + a.2 ≤ b.1)
              (scheduleRun 0 [((0 : ℚ), (1 : ℚ)), ((0 : ℚ), (2 : ℚ))])
          ∧ ((∀ k : ℕ, k + 1 < ([((0 : ℚ), (1 : ℚ)), ((0 : ℚ), (2 : ℚ))]).length →
                (([((0 : ℚ), (1 : ℚ)), ((0 : ℚ), (2 : ℚ))]).getD (k + 1) (0, 0)).1
                  ≤ ((scheduleRun 0 [((0 : ℚ), (1 : ℚ)), ((0 : ℚ), (2 : ℚ))]).getD k (0, 0)).1
                      + ((scheduleRun 0 [((0 : ℚ), (1 : ℚ)), ((0 : ℚ), (2 : ℚ))]).getD k (0, 0)).2) →
              ∀ k : ℕ, k + 1 < ([((0 : ℚ), (1 : ℚ)), ((0 : ℚ), (2 : ℚ))]).length →
                ((scheduleRun 0 [((0 : ℚ), (1 : ℚ)), ((0 : ℚ), (2 : ℚ))]).getD (k + 1) (0, 0)).1
                  = ((scheduleRun 0 [((0 : ℚ), (1 : ℚ)), ((0 : ℚ), (2 : ℚ))]).getD k (0, 0)).1
                      + ((scheduleRun 0 [((0 : ℚ), (1 : ℚ)), ((0 : ℚ), (2 : ℚ))]).getD k (0, 0)).2)) :=
  ⟨by decide, playback_scheduler_invariant 0 [((0 : ℚ), (1 : ℚ)), ((0 : ℚ), (2 : ℚ))] (by decide)⟩

end

/-! ## PCM round trip -/

theorem toInt16_mem_Icc (m : ℤ) : -32768 ≤ toInt16 m ∧ toInt16 m ≤ 32767 := by
  unfold toInt16
  omega

theorem sampleToInt16_mem_Icc (x : ℚ) :
    -32768 ≤ sampleToInt16 x ∧ sampleToInt16 x ≤ 32767 :=
  toInt16_mem_Icc _

/-- Serialising an in-range 16-bit value to its little-endian byte pair and
reading it back through the `Int16Array` view recovers the value. -/
theorem bytesToInt16s_int16ToBytes (n : ℤ) (tail : List ℕ)
    (h1 : -32768 ≤ n) (h2 : n ≤ 32767) :
    bytesToInt16s (int16ToBytes n ++ tail) = n :: bytesToInt16s tail := by
  have hhead : toInt16 ((((n % 65536).toNat % 256 : ℕ) : ℤ)
      + 256 * (((n % 65536).toNat / 256 : ℕ) : ℤ)) = n := by
    unfold toInt16
    omega
  calc bytesToInt16s (int16ToBytes n ++ tail)
      = bytesToInt16s ((n % 65536).toNat % 256 :: ((n % 65536).toNat / 256) :: tail) := rfl
    _ = toInt16 ((((n % 65536).toNat % 256 : ℕ) : ℤ)
          + 256 * (((n % 65536).toNat / 256 : ℕ) : ℤ)) :: bytesToInt16s tail := by
        rw [bytesToInt16s]
    _ = n :: bytesToInt16s tail := by rw [hhead]

/-- The decode step applied to the forward conversion recovers, per sample,
the stored 16-bit value divided by 32768. -/
theorem pcm16ToFloat_float32To16BitPCM :
    ∀ frame : List ℚ,
      pcm16ToFloat (float32To16BitPCM frame)
        = frame.map (fun x => ((sampleToInt16 x : ℚ)) / 32768)
  | [] => rfl
  | x :: rest => by
      have ih := pcm16ToFloat_float32To16BitPCM rest
      unfold pcm16ToFloat at ih ⊢
      rw [show float32To16BitPCM (x :: rest)
            = int16ToBytes (sampleToInt16 x) ++ float32To16BitPCM rest by
          simp [float32To16BitPCM]]
      rw [bytesToInt16s_int16ToBytes _ _ (sampleToInt16_mem_Icc x).1 (sampleToInt16_mem_Icc x).2]
      rw [List.map_cons, List.map_cons, ih]

/-- Per-sample error bound for the encode–decode round trip on an in-range
sample: at most `2/32768` (the non-negative side scales by 32767 on encode
but divides by 32768 on decode; the negative side is within `1/32768`). -/
theorem decode_encode_sample_close {x : ℚ} (h1 : -1 ≤ x) (h2 : x ≤ 1) :
    |((sampleToInt16 x : ℚ)) / 32768 - x| ≤ 2 / 32768 := by
  rw [sampleToInt16_eq_truncQ, clamp_of_mem_Icc h1 h2]
  by_cases hx : x < 0
  · rw [if_pos hx]
    have hneg : ¬ (0 ≤ x * 32768) :=
      not_le.mpr (mul_neg_of_neg_of_pos hx (by norm_num))
    unfold truncQ
    rw [if_neg hneg]
    have hc1 : (x * 32768 : ℚ) ≤ ⌈x * 32768⌉ := Int.le_ceil _
    have hc2 : ((⌈x * 32768⌉ : ℤ) : ℚ) < x * 32768 + 1 := Int.ceil_lt_add_one _
    rw [abs_le]
    constructor <;> linarith
  · rw [if_neg hx]
    push_neg at hx
    have hpos : (0 : ℚ) ≤ x * 32767 := mul_nonneg hx (by norm_num)
    unfold truncQ
    rw [if_pos hpos]
    have hf1 : ((⌊x * 32767⌋ : ℤ) : ℚ) ≤ x * 32767 := Int.floor_le _
    have hf2 : x * 32767 - 1 < ((⌊x * 32767⌋ : ℤ) : ℚ) := Int.sub_one_lt_floor _
    rw [abs_le]
    constructor <;> linarith

/-- C2 (amended): for every float frame with samples in `[-1, 1]`, encoding
with the forward conversion of 4.1 and decoding with the int16/32768 step
of `decodeAudioData` yields, at every index, a value within `2/32768` of
the original sample. -/
theorem pcm_roundtrip_bound (frame : List ℚ)
    (h : ∀ x ∈ frame, -1 ≤ x ∧ x ≤ 1) (i : ℕ) (hi : i < frame.length) :
    |(pcm16ToFloat (float32To16BitPCM frame)).getD i 0 - frame.getD i 0| ≤ 2 / 32768 := by
  rw [pcm16ToFloat_float32To16BitPCM]
  have hi' : i < (frame.map (fun x => ((sampleToInt16 x : ℚ)) / 32768)).length := by
    simpa using hi
  rw [List.getD_eq_getElem _ _ hi', List.getD_eq_getElem _ _ hi, List.getElem_map]
  have hmem := List.getElem_mem (l := frame) (n := i) hi
  exact decode_encode_sample_close (h _ hmem).1 (h _ hmem).2

section

attribute [local semireducible] Rat.mul Rat.inv Rat.add Rat.sub

/-- C2 counterexample: the in-range sample `65533/65536` encodes to the
16-bit value 32765 and decodes to `32765/32768 = 65530/65536`, an error of
`3/65536`, which exceeds the claimed bound `1/32768 = 2/65536`. -/
theorem pcm_roundtrip_counterexample :
    ((-1 ≤ (65533 : ℚ) / 65536 ∧ (65533 : ℚ) / 65536 ≤ 1)
        ∧ (pcm16ToFloat (float32To16BitPCM [(65533 : ℚ) / 65536])).getD 0 0
            = 32765 / 32768)
      ∧ ¬ |(pcm16ToFloat (float32To16BitPCM [(65533 : ℚ) / 65536])).getD 0 0
            - ([(65533 : ℚ) / 65536] : List ℚ).getD 0 0| ≤ 1 / 32768 := by
  decide

/-- C2 witness. -/
theorem pcm_roundtrip_bound_witness :
    (∀ x ∈ [(1 : ℚ) / 2], -1 ≤ x ∧ x ≤ 1) ∧ 0 < ([(1 : ℚ) / 2] : List ℚ).length
      ∧ |(pcm16ToFloat (float32To16BitPCM [(1 : ℚ) / 2])).getD 0 0
          - ([(1 : ℚ) / 2] : List ℚ).getD 0 0| ≤ 2 / 32768 :=
  ⟨by decide, by decide, pcm_roundtrip_bound [(1 : ℚ) / 2] (by decide) 0 (by decide)⟩

end

end VoiceTranslator
